import Mathlib

/-!
Verification development for the static-typing core of a Starlark interpreter.

The definitions below are shallow embeddings of:
* `src/starlark/src/typing/ty.rs` — the `Ty` type algebra (`unions`, `indexed`,
  `Ty::name`, `as_name`, the derived structural ordering used by `unions`);
* `src/starlark/src/values/typing.rs` — the runtime type-annotation compiler
  (`TypeCompiled`) and its matcher semantics;
* `src/starlark/src/typing/ctx.rs` — the checker's `expression_type` /
  `expression_bind_type` walk (the claim-relevant fragments).

Machine details (heaps, spans, interning) are erased; values and types are
plain inductive data.  Rust's `Vec` is `List`, `Option`/`Result` are
`Option`/`Except`.
-/

/-- Modelled from the spec: the `Custom(TyCustom)` capability object used for
functions, structs, records and enums.  Its implementations
(`TyCustomFunction` in `typing/function.rs`, `TyStruct` in
`typing/structs.rs`) are outside the modeled sources, so a custom type is
abstracted to the implementing type's name (the ordering fallback the spec
demands: "ties broken by a type-name string comparison") plus a numeric tag
standing for the implementation's own `Ord` value. -/
structure TyCustomM where
  implName : String
  tag : Nat
deriving DecidableEq

/-- Modelled from the spec: the custom pairwise union-merge hook (`union2` of
`TyCustomImpl`).  The dynamic implementations are outside the modeled
sources; in the model two customs merge exactly when they are equal (the
Rust code can only merge customs of the same dynamic type, and after
`dedup` equal values have already collapsed, so this hook never fires on
the normalised lists the claims are about). -/
def TyCustomM.union2 (x y : TyCustomM) : Option TyCustomM :=
  if x = y then some x else none

/-- Modelled from the spec: `as_name` of a custom type: `TyCustomFunction`
reports `"function"`, `TyStruct` reports `"struct"`. -/
def TyCustomM.asName (c : TyCustomM) : Option String :=
  if c.implName = "TyCustomFunction" then some "function"
  else if c.implName = "TyStruct" then some "struct"
  else none

/-- The Starlark static type (`enum Ty` of `typing/ty.rs`).  Constructor
order matches the Rust declaration order, which fixes the derived `Ord`. -/
inductive Ty where
  | never : Ty
  | any : Ty
  | union (xs : List Ty) : Ty
  | name (s : String) : Ty
  | iter (t : Ty) : Ty
  | list (t : Ty) : Ty
  | tuple (xs : List Ty) : Ty
  | dict (k v : Ty) : Ty
  | custom (c : TyCustomM) : Ty

/-- Comparison derived from a linear order, `Ord::cmp` style.  Rust's
`String` order (byte-wise) agrees with code-point order, which is the
`List Char` lexicographic order underlying Lean's `LinearOrder String`. -/
def cmpo {α : Type} [LinearOrder α] (a b : α) : Ordering :=
  if a < b then .lt else if a = b then .eq else .gt

/-- Discriminant of a `Ty`, in Rust declaration order (what `derive(Ord)`
compares first). -/
def Ty.rank : Ty → Nat
  | .never => 0
  | .any => 1
  | .union _ => 2
  | .name _ => 3
  | .iter _ => 4
  | .list _ => 5
  | .tuple _ => 6
  | .dict _ _ => 7
  | .custom _ => 8

/-- Ordering of custom types (`impl Ord for TyCustom`): compare the
implementation type name, then the implementation's own ordering (the tag
in this model). -/
def TyCustomM.cmp (a b : TyCustomM) : Ordering :=
  (cmpo a.implName b.implName).then (cmpo a.tag b.tag)

mutual
/-- Rust `derive(PartialOrd, Ord)` on `Ty`: discriminant first, then fields
lexicographically (`Vec` fields compare element-wise, shorter-prefix
first). -/
def Ty.cmp : Ty → Ty → Ordering
  | .union xs, .union ys => Ty.cmpList xs ys
  | .name a, .name b => cmpo a b
  | .iter a, .iter b => Ty.cmp a b
  | .list a, .list b => Ty.cmp a b
  | .tuple xs, .tuple ys => Ty.cmpList xs ys
  | .dict a b, .dict c d => (Ty.cmp a c).then (Ty.cmp b d)
  | .custom a, .custom b => TyCustomM.cmp a b
  | x, y => cmpo x.rank y.rank
termination_by structural x => x

/-- Lexicographic comparison of `Vec<Ty>` (derived `Ord` on `Vec`). -/
def Ty.cmpList : List Ty → List Ty → Ordering
  | [], [] => .eq
  | [], _ :: _ => .lt
  | _ :: _, [] => .gt
  | x :: xs, y :: ys => (Ty.cmp x y).then (Ty.cmpList xs ys)
termination_by structural xs => xs
end

/-- Rust `derive(PartialEq)` on `Ty`; it agrees with the derived `Ord`'s notion
of equality, so it is expressed through `Ty.cmp`. -/
instance : BEq Ty := ⟨fun x y => Ty.cmp x y == Ordering.eq⟩

/-- The `≤` relation of the derived `Ord`, used by `Vec::sort`. -/
def Ty.le (x y : Ty) : Prop := Ty.cmp x y ≠ Ordering.gt

instance Ty.decLe : DecidableRel Ty.le := fun x y => by
  unfold Ty.le; infer_instance

/-- The strict `<` of the derived `Ord`. -/
def Ty.lt (x y : Ty) : Prop := Ty.cmp x y = Ordering.lt

/-- Rust `Ty::into_iter_union`: the alternatives of a union, the empty sequence
for `Never`, and a singleton otherwise. -/
def Ty.intoIterUnion : Ty → List Ty
  | .union xs => xs
  | .never => []
  | t => [t]

/-- Rust `Ty::iter_union` (borrowing variant, same contents). -/
def Ty.iterUnion : Ty → List Ty
  | .union xs => xs
  | .never => []
  | t => [t]

/-- Rust `Vec::dedup`: remove consecutive duplicate elements. -/
def Ty.dedupAdjacent : List Ty → List Ty
  | [] => []
  | [x] => [x]
  | x :: y :: rest =>
    if x == y then Ty.dedupAdjacent (y :: rest)
    else x :: Ty.dedupAdjacent (y :: rest)

mutual
/-- Structural depth of a `Ty`, counting the containers whose element types
feed the pairwise merge of `unions` (`List`, `Dict`, also `Iter`/`Tuple`
for uniformity).  A `Union` contributes the maximum of its alternatives:
`unions` flattens nested unions away before merging.  This is the fuel
bound for `Ty.unionsF` below; it is not part of the Rust source, where the
same recursion is simply decreasing on structure. -/
def Ty.nu : Ty → Nat
  | .never => 0
  | .any => 0
  | .name _ => 0
  | .custom _ => 0
  | .iter t => t.nu + 1
  | .list t => t.nu + 1
  | .tuple xs => Ty.nuList xs + 1
  | .dict k v => max k.nu v.nu + 1
  | .union xs => Ty.nuList xs
termination_by structural t => t

/-- Maximum `Ty.nu` over a list. -/
def Ty.nuList : List Ty → Nat
  | [] => 0
  | x :: xs => max x.nu (Ty.nuList xs)
termination_by structural xs => xs
end

mutual
/-- Rust `Ty::unions`, fuel-indexed: flatten nested unions, sort by the derived
order, drop consecutive duplicates, drop `Never`, short-circuit to `Any`,
merge adjacent structurally-compatible elements, then rebuild.  The fuel
only decreases at the nested `union2` calls inside the merge step; the
wrapper `Ty.unions` supplies a depth bound that those calls never
exhaust.  `Vec::sort` (a stable sort) is modelled by `insertionSort`:
under the lawful total order proved below every sorted permutation of a
list is unique, so any correct sort computes the same list. -/
def Ty.unionsF : Nat → List Ty → Ty
  | 0, _ => .never
  | n + 1, xs =>
    Ty.unionsCore n
      (Ty.dedupAdjacent (List.insertionSort Ty.le (xs.flatMap Ty.intoIterUnion)))
  termination_by n _ => (n, 0)

/-- The tail of `Ty::unions` after `flat_map`/`sort`/`dedup`: retain the
non-`Never` elements, short-circuit to `Any`, merge adjacent elements and
rebuild the result. -/
def Ty.unionsCore (n : Nat) (ys : List Ty) : Ty :=
  let xs := ys.filter fun x => !(x == Ty.never)
  if xs.contains Ty.any then Ty.any
  else
    match Ty.mergeAdjF n xs with
    | [] => .never
    | [x] => x
    | xs => .union xs
  termination_by (n, ys.length + 4)
  decreasing_by
    have h1 : (ys.filter fun x => !(x == Ty.never)).length ≤ ys.length :=
      List.length_filter_le _ ys
    exact Prod.Lex.right n (by omega)

/-- Rust `merge_adjacent` top level: an empty sequence stays empty, otherwise the
first element seeds the accumulator loop. -/
def Ty.mergeAdjF (n : Nat) : List Ty → List Ty
  | [] => []
  | y :: tl => Ty.mergeRunF n y tl
  termination_by l => (n, l.length + 3)

/-- Rust `merge_adjacent` of `typing/ty.rs`, specialised to the merge closure of
`unions` and written in the same accumulator style as the Rust loop
(`last` is the pending element). -/
def Ty.mergeRunF (n : Nat) (last : Ty) : List Ty → List Ty
  | [] => [last]
  | x :: xs =>
    match Ty.mergePairF n last x with
    | some m => Ty.mergeRunF n m xs
    | none => last :: Ty.mergeRunF n x xs
  termination_by xs => (n, xs.length + 2)

/-- The merge closure passed to `merge_adjacent` by `unions`:
`List(a) ∪ List(b) → List(a∪b)`, `Dict` merges key-with-key and
value-with-value, customs merge through their hook; everything else is
left unmerged (`Either::Right` returns the pair unchanged). -/
def Ty.mergePairF (n : Nat) : Ty → Ty → Option Ty
  | .list x, .list y => some (.list (Ty.unionsF n [x, y]))
  | .dict k1 v1, .dict k2 v2 =>
    some (.dict (Ty.unionsF n [k1, k2]) (Ty.unionsF n [v1, v2]))
  | .custom x, .custom y => (TyCustomM.union2 x y).map Ty.custom
  | _, _ => none
  termination_by _ _ => (n, 1)
end

/-- Rust `Ty::unions`.  The fuel `nuList xs + 1` bounds the depth of nested
`union2` calls: each such call descends into element types of a `List` or
`Dict`, one structural level down. -/
def Ty.unions (xs : List Ty) : Ty := Ty.unionsF (Ty.nuList xs + 1) xs

/-- Rust `Ty::union2`. -/
def Ty.union2 (a b : Ty) : Ty := Ty.unions [a, b]

/-- Modelled from the spec: `Ty::function(params, result)` builds a
`TyCustomFunction`; `typing/function.rs` is outside the modeled sources,
so the payload is abstracted into the custom tag. -/
def Ty.functionAny : Ty := Ty.custom { implName := "TyCustomFunction", tag := 0 }

/-- Modelled from the spec: `TyStruct::any()` as a custom type. -/
def Ty.structAny : Ty := Ty.custom { implName := "TyStruct", tag := 0 }

/-- Rust `Ty::name`: create a `Ty::Name`, or one of the standard structural
types for the reserved strings.  Note the Rust comment: `"tuple"` cannot
be converted to `Ty::Tuple` since the length of the tuple is unknown. -/
def Ty.mkName (s : String) : Ty :=
  match s with
  | "list" => Ty.list Ty.any
  | "dict" => Ty.dict Ty.any Ty.any
  | "function" => Ty.functionAny
  | "struct" => Ty.structAny
  | "never" => Ty.never
  | _ => Ty.name s

/-- Rust `Ty::as_name`: turn a type back into a name, erasing structure. -/
def Ty.asName : Ty → Option String
  | .name x => some x
  | .list _ => some "list"
  | .tuple _ => some "tuple"
  | .dict _ _ => some "dict"
  | .never => some "never"
  | .custom c => c.asName
  | .any => none
  | .union _ => none
  | .iter _ => none

/-- Rust `Ty::none`. -/
def Ty.noneTy : Ty := Ty.mkName "NoneType"

/-- Rust `Ty::bool`. -/
def Ty.bool : Ty := Ty.mkName "bool"

/-- Rust `Ty::int`. -/
def Ty.int : Ty := Ty.mkName "int"

/-- Rust `Ty::float`. -/
def Ty.float : Ty := Ty.mkName "float"

/-- Rust `Ty::string`. -/
def Ty.string : Ty := Ty.mkName "string"

/-- Rust `Ty::tuple2`. -/
def Ty.tuple2 (a b : Ty) : Ty := Ty.tuple [a, b]

/-- Rust `Ty::is_any`. -/
def Ty.isAny (t : Ty) : Bool := t == Ty.any

/-- Rust `Ty::is_never`. -/
def Ty.isNever (t : Ty) : Bool := t == Ty.never

/-- Rust `Ty::is_list`. -/
def Ty.isList : Ty → Bool
  | .list _ => true
  | _ => false

/-- Rust `Ty::is_name`. -/
def Ty.isName (t : Ty) (s : String) : Bool :=
  match t with
  | .name x => x == s
  | _ => false

/-- Rust `Ty::indexed`: the result type of `self[i]`. -/
def Ty.indexed : Ty → Nat → Ty
  | .any, _ => .any
  | .never, _ => .never
  | .list x, _ => x
  | .tuple xs, i => (xs[i]?).getD Ty.never
  | .union xs, i => Ty.unions (xs.attach.map fun x => Ty.indexed x.1 i)
  | _, _ => .any
termination_by t _ => sizeOf t
decreasing_by
  have := List.sizeOf_lt_of_mem x.2
  simp only [Ty.union.sizeOf_spec]
  omega

/-- Whether the merge closure of `unions` would merge this adjacent pair
(`mergePairF` returns `some` exactly on these shapes, independently of
fuel). -/
def Ty.mergeablePair : Ty → Ty → Bool
  | .list _, .list _ => true
  | .dict _ _, .dict _ _ => true
  | .custom x, .custom y => (TyCustomM.union2 x y).isSome
  | _, _ => false

/-- Whether the type is a `Union`. -/
def Ty.isUnionT : Ty → Bool
  | .union _ => true
  | _ => false

/-- Admissible union alternative: not itself a union, not `Never`, not
`Any`. -/
def Ty.unionOkElem (x : Ty) : Bool :=
  !x.isUnionT && !(x == Ty.never) && !(x == Ty.any)

/-- The representation invariant of `TyUnion` (its field is private to
`typing/ty.rs`, and `unions` is the sole constructor, so every union a
program can observe satisfies this): at least two alternatives, none of
them a nested union, `Never` or `Any`, strictly sorted by the derived
order, and no adjacent pair the merge step could combine.  Non-union
types carry no constraint. -/
def Ty.unionNormal : Ty → Prop
  | .union xs =>
    2 ≤ xs.length ∧
    (∀ x ∈ xs, Ty.unionOkElem x = true) ∧
    xs.Chain' Ty.lt ∧
    xs.Chain' (fun a b => Ty.mergeablePair a b = false)
  | _ => True

/-! ## Runtime values and the type-annotation compiler (`values/typing.rs`) -/

/-- A runtime Starlark value, reduced to the shape the annotation compiler
and matchers inspect.  `other` stands for any further host value: it
carries the string `get_type()` reports and the optional string a
`get_attr("type")` lookup would produce (used by the
"perhaps you meant" diagnostic). -/
inductive Value where
  | none : Value
  | bool (b : Bool) : Value
  | int (i : Int) : Value
  | str (s : String) : Value
  | list (xs : List Value) : Value
  | tuple (xs : List Value) : Value
  | dict (entries : List (Value × Value)) : Value
  | other (tyName : String) (typeAttr : Option String) : Value

/-- Rust `Value::get_type` for the modelled shapes. -/
def Value.getType : Value → String
  | .none => "NoneType"
  | .bool _ => "bool"
  | .int _ => "int"
  | .str _ => "string"
  | .list _ => "list"
  | .tuple _ => "tuple"
  | .dict _ => "dict"
  | .other t _ => t

/-- Rust `StarlarkValue::matches_type` (default implementation: compare with
`get_type`). -/
def Value.matchesType (v : Value) (t : String) : Bool := v.getType == t

/-- Rust `Value::unpack_str`. -/
def Value.unpackStr : Value → Option String
  | .str s => some s
  | _ => Option.none

/-- Rust `Value::unpack_int`. -/
def Value.unpackInt : Value → Option Int
  | .int i => some i
  | _ => Option.none

/-- Rust `Value::unpack_bool`. -/
def Value.unpackBool : Value → Option Bool
  | .bool b => some b
  | _ => Option.none

/-- Rust `Value::is_none`. -/
def Value.isNone : Value → Bool
  | .none => true
  | _ => false

/-- Rust `ListRef::from_value(..).is_some()`. -/
def Value.isListV : Value → Bool
  | .list _ => true
  | _ => false

/-- Rust `DictRef::from_value(..).is_some()`. -/
def Value.isDictV : Value → Bool
  | .dict _ => true
  | _ => false

/-- A compiled type matcher.  Each constructor is one of the boxed
`TypeCompiledImpl` closures of `values/typing.rs`. -/
inductive TypeCompiled where
  | anything : TypeCompiled
  | isNone : TypeCompiled
  | isString : TypeCompiled
  | isInt : TypeCompiled
  | isBool : TypeCompiled
  | concrete (t : String) : TypeCompiled
  | isList : TypeCompiled
  | listOf (t : TypeCompiled) : TypeCompiled
  | anyOfTwo (t1 t2 : TypeCompiled) : TypeCompiled
  | anyOf (ts : List TypeCompiled) : TypeCompiled
  | isDict : TypeCompiled
  | dictOf (kt vt : TypeCompiled) : TypeCompiled
  | tupleOf (ts : List TypeCompiled) : TypeCompiled

/-- Rust `TypeCompiled::matches`: the semantics of each compiled closure,
written with `List.all` / `List.any` exactly as the Rust closures iterate
(`attach` only carries the membership facts the termination proof
needs). -/
def TypeCompiled.matches : TypeCompiled → Value → Bool
  | .anything, _ => true
  | .isNone, v => v.isNone
  | .isString, v => v.unpackStr.isSome || v.matchesType "string"
  | .isInt, v => v.unpackInt.isSome || v.matchesType "int"
  | .isBool, v => v.unpackBool.isSome || v.matchesType "bool"
  | .concrete t, v => v.matchesType t
  | .isList, v => v.isListV
  | .listOf t, v =>
    match v with
    | .list xs => xs.all fun x => t.matches x
    | _ => false
  | .anyOfTwo t1 t2, v => t1.matches v || t2.matches v
  | .anyOf ts, v => ts.attach.any fun t => t.1.matches v
  | .isDict, v => v.isDictV
  | .dictOf kt vt, v =>
    match v with
    | .dict es => es.all fun kv => kt.matches kv.1 && vt.matches kv.2
    | _ => false
  | .tupleOf ts, v =>
    match v with
    | .tuple vs =>
      vs.length == ts.length &&
        ((ts.zip vs).attach.all fun p => p.1.1.matches p.1.2)
    | _ => false
termination_by t _ => sizeOf t
decreasing_by
  all_goals try have h9 := List.sizeOf_lt_of_mem t.2
  all_goals try (obtain ⟨⟨pa, pb⟩, hp⟩ := p
                 have h9 := List.sizeOf_lt_of_mem (List.of_mem_zip hp).1)
  all_goals simp +arith at *
  all_goals omega

/-- Rust `TypeCompiled::is_wildcard`: `""` or a leading underscore. -/
def TypeCompiled.isWildcard (x : String) : Bool :=
  x == "" ||
    match x.data with
    | [] => false
    | c :: _ => c == '_'

/-- Rust `TypeCompiled::is_wildcard_value`. -/
def TypeCompiled.isWildcardValue (x : Value) : Bool :=
  match x.unpackStr with
  | some s => TypeCompiled.isWildcard s
  | Option.none => false

/-- Rust `TypeCompiled::from_str`. -/
def TypeCompiled.fromStr (t : String) : TypeCompiled :=
  if TypeCompiled.isWildcard t then .anything
  else
    match t with
    | "string" => .isString
    | "int" => .isInt
    | "bool" => .isBool
    | _ => .concrete t

/-- The `TypingError` of `values/typing.rs` (names shortened).  The
mismatch variant is raised by `check_type`, the other two by annotation
compilation. -/
inductive RtTypingError where
  | typeAnnMismatch (value : Value) (valueType : String) (ann : Value)
      (param : String) : RtTypingError
  | invalidTypeAnn (ty : Value) : RtTypingError
  | perhapsYouMeant (ty : Value) (hint : String) : RtTypingError

/-- Rust `invalid_type_annotation`: if the value exposes a string `type`
attribute the error hints at the quoted name, else a plain invalid
annotation error. -/
def invalidTypeAnnErr (ty : Value) : RtTypingError :=
  match ty with
  | .other _ (some n) => .perhapsYouMeant ty n
  | _ => .invalidTypeAnn ty

mutual
/-- Rust `TypeCompiled::new`: compile an annotation value. -/
def TypeCompiled.new : Value → Except RtTypingError TypeCompiled
  | .str s => .ok (TypeCompiled.fromStr s)
  | .none => .ok .isNone
  | .tuple vs => TypeCompiled.fromTuple vs
  | .list xs => TypeCompiled.fromList xs
  | .dict es => TypeCompiled.fromDict es
  | v => .error (invalidTypeAnnErr v)
  termination_by v => (sizeOf v, 0)

/-- Rust `try_map(TypeCompiled::new)` over a sequence of annotation values. -/
def TypeCompiled.newList : List Value → Except RtTypingError (List TypeCompiled)
  | [] => .ok []
  | v :: vs => do
    let t ← TypeCompiled.new v
    let ts ← TypeCompiled.newList vs
    .ok (t :: ts)
  termination_by vs => (sizeOf vs, 0)

/-- Rust `TypeCompiled::from_tuple`. -/
def TypeCompiled.fromTuple (vs : List Value) :
    Except RtTypingError TypeCompiled := do
  let ts ← TypeCompiled.newList vs
  .ok (TypeCompiled.tupleOf ts)
  termination_by (sizeOf vs, 1)

/-- Rust `TypeCompiled::from_list`: `[]` is invalid, `[t]` is list-of (or a bare
list check for a wildcard), `[t1,t2]` is the two-element any-of fast path,
three or more is the general any-of. -/
def TypeCompiled.fromList (ts : List Value) :
    Except RtTypingError TypeCompiled :=
  match ts with
  | [] => .error (.invalidTypeAnn (Value.list []))
  | [t] =>
    if TypeCompiled.isWildcardValue t then .ok .isList
    else do
      let c ← TypeCompiled.new t
      .ok (TypeCompiled.listOf c)
  | [t1, t2] => do
    let c1 ← TypeCompiled.new t1
    let c2 ← TypeCompiled.new t2
    .ok (TypeCompiled.anyOfTwo c1 c2)
  | ts => do
    let cs ← TypeCompiled.newList ts
    .ok (TypeCompiled.anyOf cs)
  termination_by (sizeOf ts, 1)

/-- Rust `TypeCompiled::from_dict`: a singleton `{k: v}` compiles (to a bare
dict check when both sides are wildcards), anything else is invalid. -/
def TypeCompiled.fromDict (es : List (Value × Value)) :
    Except RtTypingError TypeCompiled :=
  match es with
  | [(k, v)] =>
    if TypeCompiled.isWildcardValue k && TypeCompiled.isWildcardValue v then
      .ok .isDict
    else do
      let ck ← TypeCompiled.new k
      let cv ← TypeCompiled.new v
      .ok (TypeCompiled.dictOf ck cv)
  | _ => .error (.invalidTypeAnn (Value.dict es))
  termination_by (sizeOf es, 1)
end

/-! ## The checker walk (`typing/ctx.rs`) -/

/-- Rust `TypingBinOp` of the oracle traits (referenced from `ctx.rs`; the trait
file itself is outside the modeled sources). -/
inductive TypingBinOpM where
  | add | sub | mul | div | floorDiv | percent
  | bitAnd | bitOr | bitXor | leftShift | rightShift
  | less | inOp

/-- Rust `TypingUnOp`. -/
inductive TypingUnOpM where
  | minus | plus | bitNot

/-- Rust `TypingAttr`. -/
inductive TypingAttrM where
  | binOp (op : TypingBinOpM)
  | unOp (op : TypingUnOpM)
  | index
  | slice
  | iterAttr
  | regular (attrName : String)

/-- A recorded hard error of the checker.  Its payload is produced by the
oracle (outside the modeled sources), so it is kept abstract. -/
inductive TypingErrorM where
  | typeMismatch (got require : Ty) : TypingErrorM
  | other (category : String) : TypingErrorM

/-- The claim-relevant state of `TypingContext`: the binding environment
(`types`, total: the Rust map is indexed only at populated bindings and
panics otherwise), plus the two oracle services the modelled walk
consults.  `primitive` abstracts `expression_primitive_ty` (attribute
lookup followed by `validate_call`, both through the oracle);
`validateType` abstracts `oracle.validate_type`, returning the error it
reports on incompatible types.  Error accumulation through the `RefCell`
is modelled by returning error lists where a claim needs them
(`bindExprType`); `exprType` returns only the computed type. -/
structure TypingContextM where
  types : Nat → Ty
  primitive : TypingAttrM → Ty → List Ty → Ty
  validateType : Ty → Ty → Option TypingErrorM

/-- Rust `BinOp` of the surface syntax. -/
inductive BinOpM where
  | orOp | andOp | equal | notEqual
  | less | greater | lessOrEqual | greaterOrEqual
  | inOp | notIn
  | subtract | add | multiply | percent | divide | floorDivide
  | bitAnd | bitOr | bitXor | leftShift | rightShift

/-- The expression fragment the claims exercise, mirroring `ExprP`:
tuples, identifiers (`none` = unresolved, degrades to `Any`), literals,
`not`, binary operators, conditionals, list and dict literals.  The
remaining variants (calls, attribute access, slices, lambdas,
comprehensions) route through oracle lookups and are outside the claims
settled here. -/
inductive ExprM where
  | tupleE (xs : List ExprM)
  | ident (slot : Option Nat)
  | litInt (n : Int)
  | litFloat
  | litStr (s : String)
  | notE (x : ExprM)
  | op (lhs : ExprM) (o : BinOpM) (rhs : ExprM)
  | ifE (c t f : ExprM)
  | listE (xs : List ExprM)
  | dictE (kvs : List (ExprM × ExprM))

/-- Rust `TypingContext::expression_type` on the modelled fragment.  Every
branch computes exactly the type the Rust arm computes; the oracle-driven
arithmetic arms go through `primitive`.  Comparison, equality and `in`
arms dispatch their validations for side effects only and return
`bool_ret`; the error side channel of those validations is dropped here
(`bindExprType` models errors where a claim needs them). -/
def TypingContextM.exprType (ctx : TypingContextM) : ExprM → Ty
  | .tupleE xs => Ty.tuple (xs.attach.map fun x => ctx.exprType x.1)
  | .ident Option.none => Ty.any
  | .ident (some i) => ctx.types i
  | .litInt _ => Ty.int
  | .litFloat => Ty.float
  | .litStr _ => Ty.string
  | .notE x => if (ctx.exprType x).isNever then Ty.never else Ty.bool
  | .op lhs o rhs =>
    let l := ctx.exprType lhs
    let r := ctx.exprType rhs
    let boolRet := if l.isNever || r.isNever then Ty.never else Ty.bool
    match o with
    | .andOp => if l.isNever then Ty.never else Ty.union2 l r
    | .orOp => if l.isNever then Ty.never else Ty.union2 l r
    | .equal => boolRet
    | .notEqual => boolRet
    | .inOp =>
      let _ := ctx.primitive (.binOp .inOp) r [l]
      boolRet
    | .notIn =>
      let _ := ctx.primitive (.binOp .inOp) r [l]
      boolRet
    | .less =>
      let _ := ctx.primitive (.binOp .less) l [r]
      boolRet
    | .lessOrEqual =>
      let _ := ctx.primitive (.binOp .less) l [r]
      boolRet
    | .greater =>
      let _ := ctx.primitive (.binOp .less) l [r]
      boolRet
    | .greaterOrEqual =>
      let _ := ctx.primitive (.binOp .less) l [r]
      boolRet
    | .subtract => ctx.primitive (.binOp .sub) l [r]
    | .add => ctx.primitive (.binOp .add) l [r]
    | .multiply => ctx.primitive (.binOp .mul) l [r]
    | .percent => ctx.primitive (.binOp .percent) l [r]
    | .divide => ctx.primitive (.binOp .div) l [r]
    | .floorDivide => ctx.primitive (.binOp .floorDiv) l [r]
    | .bitAnd => ctx.primitive (.binOp .bitAnd) l [r]
    | .bitOr => ctx.primitive (.binOp .bitOr) l [r]
    | .bitXor => ctx.primitive (.binOp .bitXor) l [r]
    | .leftShift => ctx.primitive (.binOp .leftShift) l [r]
    | .rightShift => ctx.primitive (.binOp .rightShift) l [r]
  | .ifE c t f =>
    let cTy := ctx.exprType c
    let tTy := ctx.exprType t
    let fTy := ctx.exprType f
    if cTy.isNever then Ty.never else Ty.union2 tTy fTy
  | .listE xs =>
    Ty.list (Ty.unions (xs.attach.map fun x => ctx.exprType x.1))
  | .dictE kvs =>
    Ty.dict (Ty.unions (kvs.attach.map fun kv => ctx.exprType kv.1.1))
      (Ty.unions (kvs.attach.map fun kv => ctx.exprType kv.1.2))
termination_by e => sizeOf e
decreasing_by
  all_goals try have h9 := List.sizeOf_lt_of_mem x.2
  all_goals try (obtain ⟨⟨ka, kb⟩, hk⟩ := kv
                 have h9 := List.sizeOf_lt_of_mem hk)
  all_goals simp +arith at *
  all_goals omega

/-- The `BindExpr` fragment the claims exercise: plain expressions,
indexed-get and indexed-set.  `Iter`, `AssignOp`, `ListAppend` and
`ListExtend` route through oracle attribute lookups
(`from_iterated` / `probably_a_list`) and are outside the claims settled
here. -/
inductive BindExprM where
  | expr (e : ExprM)
  | getIndex (i : Nat) (x : BindExprM)
  | setIndex (id : Nat) (index : ExprM) (e : BindExprM)

/-- Rust `TypingContext::expression_bind_type` on the modelled fragment,
returning the computed type together with the errors the branch pushes
into the context (`validate_type` failures).  The indexed-set arm is a
line-for-line translation: compute the index type, recurse into the bound
expression, validate the index against `int` only when the recorded
binding type is exactly a `List`, then rebuild a union of refined
alternatives, skipping alternatives that are neither lists nor dicts. -/
def TypingContextM.bindExprType (ctx : TypingContextM) :
    BindExprM → Ty × List TypingErrorM
  | .expr e => (ctx.exprType e, [])
  | .getIndex i x =>
    let r := ctx.bindExprType x
    (r.1.indexed i, r.2)
  | .setIndex id index e =>
    let indexTy := ctx.exprType index
    let r := ctx.bindExprType e
    let verrs :=
      if (ctx.types id).isList then (ctx.validateType indexTy Ty.int).toList
      else []
    let res := (ctx.types id).iterUnion.filterMap fun ty =>
      match ty with
      | Ty.list _ => some (Ty.list r.1)
      | Ty.dict _ _ => some (Ty.dict indexTy r.1)
      | _ => Option.none
    (Ty.unions res, r.2 ++ verrs)

/-! ## Laws of the derived ordering -/

theorem Ty.beq_def (x y : Ty) : (x == y) = (Ty.cmp x y == Ordering.eq) := rfl

theorem cmpo_eq_iff {α : Type} [LinearOrder α] {a b : α} :
    cmpo a b = Ordering.eq ↔ a = b := by
  unfold cmpo
  rcases lt_trichotomy a b with h | h | h
  · rw [if_pos h]
    exact iff_of_false (by simp) (ne_of_lt h)
  · subst h
    rw [if_neg (lt_irrefl a), if_pos rfl]
    simp
  · rw [if_neg (lt_asymm h), if_neg (ne_of_lt h).symm]
    exact iff_of_false (by simp) (ne_of_lt h).symm

theorem cmpo_lt_iff {α : Type} [LinearOrder α] {a b : α} :
    cmpo a b = Ordering.lt ↔ a < b := by
  unfold cmpo
  rcases lt_trichotomy a b with h | h | h
  · rw [if_pos h]
    exact iff_of_true rfl h
  · subst h
    rw [if_neg (lt_irrefl a), if_pos rfl]
    exact iff_of_false (by simp) (lt_irrefl a)
  · rw [if_neg (lt_asymm h), if_neg (ne_of_lt h).symm]
    exact iff_of_false (by simp) (lt_asymm h)

theorem cmpo_swap {α : Type} [LinearOrder α] (a b : α) :
    cmpo b a = (cmpo a b).swap := by
  unfold cmpo
  rcases lt_trichotomy a b with h | h | h
  · rw [if_pos h, if_neg (lt_asymm h), if_neg (ne_of_lt h).symm]
    rfl
  · subst h
    rw [if_neg (lt_irrefl a), if_pos rfl]
    rfl
  · rw [if_pos h, if_neg (lt_asymm h), if_neg (ne_of_lt h).symm]
    rfl

theorem cmpo_lt_trans {α : Type} [LinearOrder α] {a b c : α}
    (h1 : cmpo a b = Ordering.lt) (h2 : cmpo b c = Ordering.lt) :
    cmpo a c = Ordering.lt :=
  cmpo_lt_iff.mpr (lt_trans (cmpo_lt_iff.mp h1) (cmpo_lt_iff.mp h2))

theorem ordThen_swap (o1 o2 : Ordering) :
    (o1.then o2).swap = o1.swap.then o2.swap := by
  cases o1 <;> rfl

theorem ordThen_eq_iff {o1 o2 : Ordering} :
    o1.then o2 = Ordering.eq ↔ o1 = Ordering.eq ∧ o2 = Ordering.eq := by
  cases o1 <;> simp [Ordering.then]

theorem ordThen_lt_iff {o1 o2 : Ordering} :
    o1.then o2 = Ordering.lt ↔
      o1 = Ordering.lt ∨ (o1 = Ordering.eq ∧ o2 = Ordering.lt) := by
  cases o1 <;> simp [Ordering.then]

theorem TyCustomM.cmpc_swap (a b : TyCustomM) :
    TyCustomM.cmp b a = (TyCustomM.cmp a b).swap := by
  unfold TyCustomM.cmp
  rw [ordThen_swap, cmpo_swap a.implName, cmpo_swap a.tag]

theorem TyCustomM.cmpc_eq_iff {a b : TyCustomM} :
    TyCustomM.cmp a b = Ordering.eq ↔ a = b := by
  unfold TyCustomM.cmp
  rw [ordThen_eq_iff, cmpo_eq_iff, cmpo_eq_iff]
  constructor
  · rintro ⟨h1, h2⟩
    cases a; cases b
    simp_all
  · rintro rfl
    exact ⟨rfl, rfl⟩

theorem TyCustomM.cmpc_lt_trans {a b c : TyCustomM}
    (h1 : TyCustomM.cmp a b = Ordering.lt)
    (h2 : TyCustomM.cmp b c = Ordering.lt) :
    TyCustomM.cmp a c = Ordering.lt := by
  unfold TyCustomM.cmp at *
  rw [ordThen_lt_iff] at h1 h2 ⊢
  rcases h1 with h1 | ⟨h1e, h1t⟩
  · rcases h2 with h2 | ⟨h2e, h2t⟩
    · exact Or.inl (cmpo_lt_trans h1 h2)
    · exact Or.inl (cmpo_eq_iff.mp h2e ▸ h1)
  · rcases h2 with h2 | ⟨h2e, h2t⟩
    · exact Or.inl (cmpo_eq_iff.mp h1e ▸ h2)
    · exact Or.inr ⟨by rw [cmpo_eq_iff] at *; exact h1e.trans h2e,
        cmpo_lt_trans h1t h2t⟩

theorem Ty.cmp_laws :
    ∀ n : Nat,
      (∀ x y : Ty, sizeOf x + sizeOf y ≤ n →
        Ty.cmp y x = (Ty.cmp x y).swap ∧ (Ty.cmp x y = Ordering.eq → x = y)) ∧
      (∀ xs ys : List Ty, sizeOf xs + sizeOf ys ≤ n →
        Ty.cmpList ys xs = (Ty.cmpList xs ys).swap ∧
          (Ty.cmpList xs ys = Ordering.eq → xs = ys)) := by
  intro n
  induction n using Nat.strong_induction_on with
  | _ n IH =>
    constructor
    · intro x y hs
      cases x <;> cases y
      case' name.name a b =>
        exact ⟨cmpo_swap a b, fun h => congrArg Ty.name (cmpo_eq_iff.mp h)⟩
      case' iter.iter a b =>
        have hr := (IH (sizeOf a + sizeOf b) (by simp +arith at hs; omega)).1
          a b le_rfl
        exact ⟨hr.1, fun h => congrArg Ty.iter (hr.2 h)⟩
      case' list.list a b =>
        have hr := (IH (sizeOf a + sizeOf b) (by simp +arith at hs; omega)).1
          a b le_rfl
        exact ⟨hr.1, fun h => congrArg Ty.list (hr.2 h)⟩
      case' union.union as bs =>
        have hr := (IH (sizeOf as + sizeOf bs) (by simp +arith at hs; omega)).2
          as bs le_rfl
        exact ⟨hr.1, fun h => congrArg Ty.union (hr.2 h)⟩
      case' tuple.tuple as bs =>
        have hr := (IH (sizeOf as + sizeOf bs) (by simp +arith at hs; omega)).2
          as bs le_rfl
        exact ⟨hr.1, fun h => congrArg Ty.tuple (hr.2 h)⟩
      case' dict.dict k1 v1 k2 v2 =>
        have h1 := (IH (sizeOf k1 + sizeOf k2) (by simp +arith at hs; omega)).1
          k1 k2 le_rfl
        have h2 := (IH (sizeOf v1 + sizeOf v2) (by simp +arith at hs; omega)).1
          v1 v2 le_rfl
        constructor
        · show (Ty.cmp k2 k1).then (Ty.cmp v2 v1)
            = ((Ty.cmp k1 k2).then (Ty.cmp v1 v2)).swap
          rw [h1.1, h2.1, ordThen_swap]
        · intro h
          replace h : (Ty.cmp k1 k2).then (Ty.cmp v1 v2) = Ordering.eq := h
          rw [ordThen_eq_iff] at h
          rw [h1.2 h.1, h2.2 h.2]
      case' custom.custom c1 c2 =>
        exact ⟨TyCustomM.cmpc_swap c1 c2,
          fun h => congrArg Ty.custom (TyCustomM.cmpc_eq_iff.mp h)⟩
      all_goals
        exact ⟨cmpo_swap _ _, fun h => by
          first
          | rfl
          | exact absurd (cmpo_eq_iff.mp h) (by simp [Ty.rank])⟩
    · intro xs ys hs
      cases xs with
      | nil =>
        cases ys with
        | nil => exact ⟨rfl, fun _ => rfl⟩
        | cons y ys => exact ⟨rfl, fun h => nomatch h⟩
      | cons x xs =>
        cases ys with
        | nil => exact ⟨rfl, fun h => nomatch h⟩
        | cons y ys =>
          have h1 := (IH (sizeOf x + sizeOf y)
            (by simp +arith at hs; omega)).1 x y le_rfl
          have h2 := (IH (sizeOf xs + sizeOf ys)
            (by simp +arith at hs; omega)).2 xs ys le_rfl
          constructor
          · show (Ty.cmp y x).then (Ty.cmpList ys xs)
              = ((Ty.cmp x y).then (Ty.cmpList xs ys)).swap
            rw [h1.1, h2.1, ordThen_swap]
          · intro h
            replace h : (Ty.cmp x y).then (Ty.cmpList xs ys) = Ordering.eq := h
            rw [ordThen_eq_iff] at h
            rw [h1.2 h.1, h2.2 h.2]

theorem Ty.cmp_swap (x y : Ty) : Ty.cmp y x = (Ty.cmp x y).swap :=
  ((Ty.cmp_laws (sizeOf x + sizeOf y)).1 x y le_rfl).1

theorem Ty.cmp_refl (x : Ty) : Ty.cmp x x = Ordering.eq := by
  have h := Ty.cmp_swap x x
  cases hc : Ty.cmp x x <;> rw [hc] at h <;>
    first
    | rfl
    | exact absurd h (by decide)

theorem Ty.cmp_eq_iff {x y : Ty} : Ty.cmp x y = Ordering.eq ↔ x = y :=
  ⟨((Ty.cmp_laws (sizeOf x + sizeOf y)).1 x y le_rfl).2,
    fun h => h ▸ Ty.cmp_refl x⟩

theorem Ty.cmpList_eq_iff {xs ys : List Ty} :
    Ty.cmpList xs ys = Ordering.eq ↔ xs = ys := by
  constructor
  · exact ((Ty.cmp_laws (sizeOf xs + sizeOf ys)).2 xs ys le_rfl).2
  · rintro rfl
    induction xs with
    | nil => rfl
    | cons x xs ih =>
      show (Ty.cmp x x).then (Ty.cmpList xs xs) = Ordering.eq
      rw [Ty.cmp_refl, ih]
      rfl

theorem Ty.cmp_lt_rank {x y : Ty} (h : Ty.cmp x y = Ordering.lt) :
    x.rank ≤ y.rank := by
  cases x <;> cases y <;>
    first
    | exact le_rfl
    | exact le_of_lt (cmpo_lt_iff.mp h)

theorem Ty.cmp_rank_lt {x y : Ty} (h : x.rank < y.rank) :
    Ty.cmp x y = Ordering.lt := by
  cases x <;> cases y <;>
    first
    | exact cmpo_lt_iff.mpr h
    | exact absurd h (by simp [Ty.rank])

theorem Ty.cmp_lt_trans_all :
    ∀ n : Nat,
      (∀ x y z : Ty, sizeOf x + sizeOf y + sizeOf z ≤ n →
        Ty.cmp x y = Ordering.lt → Ty.cmp y z = Ordering.lt →
        Ty.cmp x z = Ordering.lt) ∧
      (∀ xs ys zs : List Ty, sizeOf xs + sizeOf ys + sizeOf zs ≤ n →
        Ty.cmpList xs ys = Ordering.lt → Ty.cmpList ys zs = Ordering.lt →
        Ty.cmpList xs zs = Ordering.lt) := by
  intro n
  induction n using Nat.strong_induction_on with
  | _ n IH =>
    constructor
    · intro x y z hs h1 h2
      cases x <;> cases y <;> cases z
      case' never.never.never => exact absurd h1 (by simp [Ty.cmp_refl])
      case' any.any.any => exact absurd h1 (by simp [Ty.cmp_refl])
      case' name.name.name a b c => exact cmpo_lt_trans h1 h2
      case' iter.iter.iter a b c =>
        exact (IH (sizeOf a + sizeOf b + sizeOf c)
          (by simp +arith at hs; omega)).1 a b c le_rfl h1 h2
      case' list.list.list a b c =>
        exact (IH (sizeOf a + sizeOf b + sizeOf c)
          (by simp +arith at hs; omega)).1 a b c le_rfl h1 h2
      case' union.union.union as bs cs =>
        exact (IH (sizeOf as + sizeOf bs + sizeOf cs)
          (by simp +arith at hs; omega)).2 as bs cs le_rfl h1 h2
      case' tuple.tuple.tuple as bs cs =>
        exact (IH (sizeOf as + sizeOf bs + sizeOf cs)
          (by simp +arith at hs; omega)).2 as bs cs le_rfl h1 h2
      case' custom.custom.custom c1 c2 c3 =>
        exact TyCustomM.cmpc_lt_trans h1 h2
      case' dict.dict.dict k1 v1 k2 v2 k3 v3 =>
        have h1' : (Ty.cmp k1 k2).then (Ty.cmp v1 v2) = Ordering.lt := h1
        have h2' : (Ty.cmp k2 k3).then (Ty.cmp v2 v3) = Ordering.lt := h2
        show (Ty.cmp k1 k3).then (Ty.cmp v1 v3) = Ordering.lt
        rw [ordThen_lt_iff] at h1' h2' ⊢
        have IHk := (IH (sizeOf k1 + sizeOf k2 + sizeOf k3)
          (by simp +arith at hs; omega)).1 k1 k2 k3 le_rfl
        have IHv := (IH (sizeOf v1 + sizeOf v2 + sizeOf v3)
          (by simp +arith at hs; omega)).1 v1 v2 v3 le_rfl
        rcases h1' with h1' | ⟨h1e, h1v⟩ <;> rcases h2' with h2' | ⟨h2e, h2v⟩
        · exact Or.inl (IHk h1' h2')
        · have hk : k2 = k3 := Ty.cmp_eq_iff.mp h2e
          exact Or.inl (hk ▸ h1')
        · have hk : k1 = k2 := Ty.cmp_eq_iff.mp h1e
          exact Or.inl (hk.symm ▸ h2')
        · have hk : k1 = k3 := (Ty.cmp_eq_iff.mp h1e).trans (Ty.cmp_eq_iff.mp h2e)
          exact Or.inr ⟨Ty.cmp_eq_iff.mpr hk, IHv h1v h2v⟩
      all_goals
        exact Ty.cmp_rank_lt (by
          have r1 := Ty.cmp_lt_rank h1
          have r2 := Ty.cmp_lt_rank h2
          simp only [Ty.rank] at r1 r2 ⊢
          omega)
    · intro xs ys zs hs h1 h2
      cases xs with
      | nil =>
        cases ys with
        | nil => exact absurd h1 (by intro hc; exact nomatch hc)
        | cons y ys =>
          cases zs with
          | nil => exact absurd h2 (by intro hc; exact nomatch hc)
          | cons z zs => rfl
      | cons x xs =>
        cases ys with
        | nil => exact absurd h1 (by intro hc; exact nomatch hc)
        | cons y ys =>
          cases zs with
          | nil => exact absurd h2 (by intro hc; exact nomatch hc)
          | cons z zs =>
            have h1' : (Ty.cmp x y).then (Ty.cmpList xs ys) = Ordering.lt := h1
            have h2' : (Ty.cmp y z).then (Ty.cmpList ys zs) = Ordering.lt := h2
            show (Ty.cmp x z).then (Ty.cmpList xs zs) = Ordering.lt
            rw [ordThen_lt_iff] at h1' h2' ⊢
            have IHe := (IH (sizeOf x + sizeOf y + sizeOf z)
              (by simp +arith at hs; omega)).1 x y z le_rfl
            have IHl := (IH (sizeOf xs + sizeOf ys + sizeOf zs)
              (by simp +arith at hs; omega)).2 xs ys zs le_rfl
            rcases h1' with h1' | ⟨h1e, h1t⟩ <;>
              rcases h2' with h2' | ⟨h2e, h2t⟩
            · exact Or.inl (IHe h1' h2')
            · have he : y = z := Ty.cmp_eq_iff.mp h2e
              exact Or.inl (he ▸ h1')
            · have he : x = y := Ty.cmp_eq_iff.mp h1e
              exact Or.inl (he.symm ▸ h2')
            · have he : x = z := (Ty.cmp_eq_iff.mp h1e).trans (Ty.cmp_eq_iff.mp h2e)
              exact Or.inr ⟨Ty.cmp_eq_iff.mpr he, IHl h1t h2t⟩

theorem Ty.cmp_lt_trans {x y z : Ty} (h1 : Ty.cmp x y = Ordering.lt)
    (h2 : Ty.cmp y z = Ordering.lt) : Ty.cmp x z = Ordering.lt :=
  (Ty.cmp_lt_trans_all (sizeOf x + sizeOf y + sizeOf z)).1 x y z le_rfl h1 h2

theorem Ty.beq_iff {x y : Ty} : (x == y) = true ↔ x = y := by
  rw [Ty.beq_def]
  rw [show ((Ty.cmp x y == Ordering.eq) = true) ↔ Ty.cmp x y = Ordering.eq by
    cases Ty.cmp x y <;> decide]
  exact Ty.cmp_eq_iff

theorem Ty.lawfulBEq : LawfulBEq Ty := by
  constructor
  · intro a b h
    exact Ty.beq_iff.mp h
  · intro a
    exact Ty.beq_iff.mpr rfl

theorem Ty.contains_iff {l : List Ty} {x : Ty} :
    l.contains x = true ↔ x ∈ l := by
  haveI := Ty.lawfulBEq
  exact List.elem_iff

theorem Ty.le_refl (x : Ty) : Ty.le x x := by
  simp [Ty.le, Ty.cmp_refl]

theorem Ty.le_total (x y : Ty) : Ty.le x y ∨ Ty.le y x := by
  unfold Ty.le
  cases h : Ty.cmp x y with
  | lt => exact Or.inl (by simp)
  | eq => exact Or.inl (by simp)
  | gt =>
    right
    rw [Ty.cmp_swap, h]
    decide

theorem Ty.le_iff_lt_or_eq {x y : Ty} : Ty.le x y ↔ Ty.lt x y ∨ x = y := by
  unfold Ty.le Ty.lt
  cases h : Ty.cmp x y with
  | lt => simp
  | eq => simp [Ty.cmp_eq_iff.mp h]
  | gt =>
    simp
    intro he
    subst he
    rw [Ty.cmp_refl] at h
    exact nomatch h

theorem Ty.lt_irrefl (x : Ty) : ¬ Ty.lt x x := by
  simp [Ty.lt, Ty.cmp_refl]

theorem Ty.lt_ne {x y : Ty} (h : Ty.lt x y) : x ≠ y := by
  rintro rfl
  exact Ty.lt_irrefl x h

theorem Ty.lt_trans {x y z : Ty} (h1 : Ty.lt x y) (h2 : Ty.lt y z) :
    Ty.lt x z :=
  Ty.cmp_lt_trans h1 h2

theorem Ty.le_of_lt {x y : Ty} (h : Ty.lt x y) : Ty.le x y :=
  Ty.le_iff_lt_or_eq.mpr (Or.inl h)

theorem Ty.le_trans {x y z : Ty} (h1 : Ty.le x y) (h2 : Ty.le y z) :
    Ty.le x z := by
  rcases Ty.le_iff_lt_or_eq.mp h1 with h1 | rfl
  · rcases Ty.le_iff_lt_or_eq.mp h2 with h2 | rfl
    · exact Ty.le_of_lt (Ty.lt_trans h1 h2)
    · exact Ty.le_of_lt h1
  · exact h2

theorem Ty.le_antisymm {x y : Ty} (h1 : Ty.le x y) (h2 : Ty.le y x) :
    x = y := by
  rcases Ty.le_iff_lt_or_eq.mp h1 with h1 | rfl
  · rcases Ty.le_iff_lt_or_eq.mp h2 with h2 | rfl
    · exact absurd (Ty.lt_trans h1 h2) (Ty.lt_irrefl x)
    · rfl
  · rfl

theorem Ty.lt_of_le_of_ne {x y : Ty} (h1 : Ty.le x y) (h2 : x ≠ y) :
    Ty.lt x y := by
  rcases Ty.le_iff_lt_or_eq.mp h1 with h | h
  · exact h
  · exact absurd h h2

theorem Ty.mem_dedupAdjacent :
    ∀ (l : List Ty) (x : Ty), x ∈ Ty.dedupAdjacent l ↔ x ∈ l
  | [], x => Iff.rfl
  | [y], x => Iff.rfl
  | y :: z :: rest, x => by
    simp only [Ty.dedupAdjacent]
    by_cases h : (y == z) = true
    · rw [if_pos h, Ty.mem_dedupAdjacent (z :: rest) x]
      have hyz : y = z := Ty.beq_iff.mp h
      subst hyz
      simp
    · rw [if_neg h]
      simp [Ty.mem_dedupAdjacent (z :: rest) x]

theorem Ty.dedupAdjacent_sorted :
    ∀ (l : List Ty), l.Sorted Ty.le → (Ty.dedupAdjacent l).Sorted Ty.lt
  | [], _ => List.sorted_nil
  | [x], _ => List.sorted_singleton x
  | x :: y :: rest, h => by
    simp only [Ty.dedupAdjacent]
    have htail : (y :: rest).Sorted Ty.le := h.of_cons
    by_cases hb : (x == y) = true
    · rw [if_pos hb]
      exact Ty.dedupAdjacent_sorted (y :: rest) htail
    · rw [if_neg hb]
      have hne : x ≠ y := fun hh => hb (Ty.beq_iff.mpr hh)
      have hd := Ty.dedupAdjacent_sorted (y :: rest) htail
      rw [List.sorted_cons]
      refine ⟨?_, hd⟩
      intro z hz
      rw [Ty.mem_dedupAdjacent] at hz
      have hxz : Ty.le x z := (List.sorted_cons.mp h).1 z hz
      refine Ty.lt_of_le_of_ne hxz ?_
      rcases List.mem_cons.mp hz with rfl | hzr
      · exact hne
      · rintro rfl
        have hxy : Ty.le x y := (List.sorted_cons.mp h).1 y (List.mem_cons_self y rest)
        have hyx : Ty.le y x := (List.sorted_cons.mp htail).1 x hzr
        exact hne (Ty.le_antisymm hxy hyx)

theorem Ty.sortDedup_canonical {l₁ l₂ : List Ty}
    (h : ∀ x, x ∈ l₁ ↔ x ∈ l₂) :
    Ty.dedupAdjacent (List.insertionSort Ty.le l₁)
      = Ty.dedupAdjacent (List.insertionSort Ty.le l₂) := by
  haveI hTot : IsTotal Ty Ty.le := ⟨Ty.le_total⟩
  haveI hTrans : IsTrans Ty Ty.le := ⟨fun a b c => Ty.le_trans⟩
  haveI hAnti : IsAntisymm Ty Ty.lt :=
    ⟨fun a b h1 h2 => absurd (Ty.lt_trans h1 h2) (Ty.lt_irrefl a)⟩
  have s1 := Ty.dedupAdjacent_sorted _ (List.sorted_insertionSort Ty.le l₁)
  have s2 := Ty.dedupAdjacent_sorted _ (List.sorted_insertionSort Ty.le l₂)
  have n1 : (Ty.dedupAdjacent (List.insertionSort Ty.le l₁)).Nodup :=
    s1.imp fun hlt => Ty.lt_ne hlt
  have n2 : (Ty.dedupAdjacent (List.insertionSort Ty.le l₂)).Nodup :=
    s2.imp fun hlt => Ty.lt_ne hlt
  refine List.eq_of_perm_of_sorted ?_ s1 s2
  rw [List.perm_ext_iff_of_nodup n1 n2]
  intro a
  rw [Ty.mem_dedupAdjacent, Ty.mem_dedupAdjacent,
    List.mem_insertionSort, List.mem_insertionSort]
  exact h a

theorem Ty.beq_false_of_ne {x y : Ty} (h : x ≠ y) : (x == y) = false := by
  cases hb : (x == y) with
  | false => rfl
  | true => exact absurd (Ty.beq_iff.mp hb) h

theorem Ty.nuList_perm {l₁ l₂ : List Ty} (h : l₁.Perm l₂) :
    Ty.nuList l₁ = Ty.nuList l₂ := by
  induction h with
  | nil => rfl
  | cons x _ ih =>
    simp only [Ty.nuList]
    rw [ih]
  | swap x y l =>
    simp only [Ty.nuList]
    omega
  | trans _ _ ih1 ih2 => exact ih1.trans ih2

theorem Ty.unionsF_congr {n : Nat} {l₁ l₂ : List Ty}
    (h : ∀ x, x ∈ l₁.flatMap Ty.intoIterUnion ↔ x ∈ l₂.flatMap Ty.intoIterUnion) :
    Ty.unionsF n l₁ = Ty.unionsF n l₂ := by
  cases n with
  | zero => simp [Ty.unionsF]
  | succ n =>
    simp only [Ty.unionsF]
    rw [Ty.sortDedup_canonical h]

theorem Ty.unions_perm {l₁ l₂ : List Ty} (h : l₁.Perm l₂) :
    Ty.unions l₁ = Ty.unions l₂ := by
  unfold Ty.unions
  rw [Ty.nuList_perm h]
  apply Ty.unionsF_congr
  intro x
  simp only [List.mem_flatMap]
  constructor
  · rintro ⟨a, ha, hx⟩
    exact ⟨a, h.subset ha, hx⟩
  · rintro ⟨a, ha, hx⟩
    exact ⟨a, h.symm.subset ha, hx⟩

theorem Ty.unions_dup (x : Ty) (l : List Ty) :
    Ty.unions (x :: x :: l) = Ty.unions (x :: l) := by
  unfold Ty.unions
  have hn : Ty.nuList (x :: x :: l) = Ty.nuList (x :: l) := by
    simp only [Ty.nuList]
    omega
  rw [hn]
  apply Ty.unionsF_congr
  intro z
  simp only [List.mem_flatMap, List.mem_cons]
  constructor
  · rintro ⟨a, ha | ha | ha, hz⟩
    · exact ⟨a, Or.inl ha, hz⟩
    · exact ⟨a, Or.inl ha, hz⟩
    · exact ⟨a, Or.inr ha, hz⟩
  · rintro ⟨a, ha | ha, hz⟩
    · exact ⟨a, Or.inl ha, hz⟩
    · exact ⟨a, Or.inr (Or.inr ha), hz⟩

theorem Ty.mergePairF_none_iff {n : Nat} {a b : Ty} :
    Ty.mergePairF n a b = Option.none ↔ Ty.mergeablePair a b = false := by
  cases a <;> cases b <;>
    simp [Ty.mergePairF, Ty.mergeablePair, Option.map_eq_none',
      Option.isSome_iff_ne_none]

theorem Ty.mergeRunF_no_merge :
    ∀ (n : Nat) (y : Ty) (ys : List Ty),
      List.Chain (fun a b => Ty.mergeablePair a b = false) y ys →
      Ty.mergeRunF n y ys = y :: ys
  | n, y, [], _ => by simp [Ty.mergeRunF]
  | n, y, z :: zs, h => by
    rcases h with _ | ⟨hyz, htail⟩
    simp only [Ty.mergeRunF]
    rw [Ty.mergePairF_none_iff.mpr hyz]
    rw [Ty.mergeRunF_no_merge n z zs htail]

theorem Ty.insertionSort_eq_self {l : List Ty} (h : l.Sorted Ty.le) :
    List.insertionSort Ty.le l = l := by
  haveI : IsTotal Ty Ty.le := ⟨Ty.le_total⟩
  haveI : IsTrans Ty Ty.le := ⟨fun a b c => Ty.le_trans⟩
  haveI : IsAntisymm Ty Ty.le := ⟨fun a b => Ty.le_antisymm⟩
  exact List.eq_of_perm_of_sorted (List.perm_insertionSort Ty.le l)
    (List.sorted_insertionSort Ty.le l) h

theorem Ty.dedupAdjacent_eq_self :
    ∀ {l : List Ty}, l.Chain' (fun a b => a ≠ b) → Ty.dedupAdjacent l = l
  | [], _ => rfl
  | [x], _ => rfl
  | x :: y :: rest, h => by
    rcases List.chain'_cons.mp h with ⟨hxy, htail⟩
    simp only [Ty.dedupAdjacent]
    rw [if_neg (by rw [Ty.beq_false_of_ne hxy]; exact Bool.false_ne_true)]
    rw [Ty.dedupAdjacent_eq_self htail]

theorem Ty.unionsCore_single {n : Nat} {t : Ty} (h1 : t ≠ Ty.never)
    (h2 : t ≠ Ty.any) : Ty.unionsCore n [t] = t := by
  have hf : List.filter (fun x => !(x == Ty.never)) [t] = [t] := by
    simp [List.filter, Ty.beq_false_of_ne h1]
  have hc : ([t].contains Ty.any) = false := by
    cases hb : ([t].contains Ty.any) with
    | false => rfl
    | true =>
      have hm := Ty.contains_iff.mp hb
      rw [List.mem_singleton] at hm
      exact absurd hm.symm h2
  simp only [Ty.unionsCore, hf, hc, Ty.mergeAdjF, Ty.mergeRunF]
  simp

theorem Ty.unionsF_plain {n : Nat} {t : Ty}
    (hflat : Ty.intoIterUnion t = [t]) (h1 : t ≠ Ty.never) (h2 : t ≠ Ty.any) :
    Ty.unionsF (n + 1) [t] = t := by
  simp only [Ty.unionsF]
  rw [show [t].flatMap Ty.intoIterUnion = [t] by simp [hflat]]
  exact Ty.unionsCore_single h1 h2

theorem Ty.unionsCore_nil {n : Nat} : Ty.unionsCore n [] = Ty.never := by
  simp [Ty.unionsCore, Ty.mergeAdjF]

theorem Ty.unionsF_never {n : Nat} : Ty.unionsF (n + 1) [Ty.never] = Ty.never := by
  simp only [Ty.unionsF]
  rw [show [Ty.never].flatMap Ty.intoIterUnion = [] by simp [Ty.intoIterUnion]]
  exact Ty.unionsCore_nil

theorem Ty.unionsF_any_mem {n : Nat} {l : List Ty}
    (h : Ty.any ∈ l.flatMap Ty.intoIterUnion) :
    Ty.unionsF (n + 1) l = Ty.any := by
  simp only [Ty.unionsF]
  have hmem : Ty.any ∈
      Ty.dedupAdjacent (List.insertionSort Ty.le (l.flatMap Ty.intoIterUnion)) := by
    rw [Ty.mem_dedupAdjacent, List.mem_insertionSort]
    exact h
  have hmemf : Ty.any ∈
      (Ty.dedupAdjacent
        (List.insertionSort Ty.le (l.flatMap Ty.intoIterUnion))).filter
          fun x => !(x == Ty.never) := by
    rw [List.mem_filter]
    exact ⟨hmem, by rw [Ty.beq_false_of_ne (by intro h; exact nomatch h)]; rfl⟩
  have hcon := Ty.contains_iff.mpr hmemf
  simp only [Ty.unionsCore, hcon]
  simp

theorem Ty.unionsF_union_normal {n : Nat} {xs : List Ty}
    (h : Ty.unionNormal (Ty.union xs)) :
    Ty.unionsF (n + 1) [Ty.union xs] = Ty.union xs := by
  obtain ⟨hlen, helems, hsorted, hmerge⟩ := h
  have hok : ∀ x ∈ xs, ¬x.isUnionT = true ∧ x ≠ Ty.never ∧ x ≠ Ty.any := by
    intro x hx
    have hh := helems x hx
    simp only [Ty.unionOkElem, Bool.and_eq_true, Bool.not_eq_true'] at hh
    exact ⟨by simp [hh.1.1], fun he => by simp [he, Ty.beq_iff.mpr] at hh,
      fun he => by simp [he, Ty.beq_iff.mpr] at hh⟩
  have hflat : ([Ty.union xs].flatMap Ty.intoIterUnion) = xs := by
    simp [Ty.intoIterUnion]
  have hsort : List.insertionSort Ty.le xs = xs := by
    apply Ty.insertionSort_eq_self
    haveI : IsTrans Ty Ty.lt := ⟨fun a b c => Ty.lt_trans⟩
    have hp : xs.Pairwise Ty.lt := List.chain'_iff_pairwise.mp hsorted
    exact hp.imp fun hab => Ty.le_of_lt hab
  have hdedup : Ty.dedupAdjacent xs = xs :=
    Ty.dedupAdjacent_eq_self (hsorted.imp fun a b hab => Ty.lt_ne hab)
  have hfilter : xs.filter (fun x => !(x == Ty.never)) = xs :=
    List.filter_eq_self.mpr fun a ha => by
      rw [Ty.beq_false_of_ne (hok a ha).2.1]
      rfl
  have hcontains : xs.contains Ty.any = false := by
    cases hb : xs.contains Ty.any with
    | false => rfl
    | true =>
      have hmem := Ty.contains_iff.mp hb
      exact absurd rfl (hok _ hmem).2.2
  simp only [Ty.unionsF]
  rw [hflat, hsort, hdedup]
  cases xs with
  | nil => simp at hlen
  | cons y tl =>
    have hmerge' : List.Chain (fun a b => Ty.mergeablePair a b = false) y tl :=
      hmerge
    simp only [Ty.unionsCore, hfilter, hcontains, Ty.mergeAdjF]
    simp only [Bool.false_eq_true, if_false]
    rw [Ty.mergeRunF_no_merge n y tl hmerge']
    cases tl with
    | nil => simp at hlen
    | cons z zs => rfl

theorem Ty.unions_single {t : Ty} (h : Ty.unionNormal t) :
    Ty.unions [t] = t := by
  unfold Ty.unions
  cases t with
  | never => exact Ty.unionsF_never
  | any =>
    apply Ty.unionsF_any_mem
    simp [Ty.intoIterUnion]
  | union xs => exact Ty.unionsF_union_normal h
  | name s =>
    exact Ty.unionsF_plain rfl (fun hh => nomatch hh) (fun hh => nomatch hh)
  | iter a =>
    exact Ty.unionsF_plain rfl (fun hh => nomatch hh) (fun hh => nomatch hh)
  | list a =>
    exact Ty.unionsF_plain rfl (fun hh => nomatch hh) (fun hh => nomatch hh)
  | tuple xs =>
    exact Ty.unionsF_plain rfl (fun hh => nomatch hh) (fun hh => nomatch hh)
  | dict k v =>
    exact Ty.unionsF_plain rfl (fun hh => nomatch hh) (fun hh => nomatch hh)
  | custom c =>
    exact Ty.unionsF_plain rfl (fun hh => nomatch hh) (fun hh => nomatch hh)

theorem Ty.unionsF_perm {n : Nat} {l₁ l₂ : List Ty} (h : l₁.Perm l₂) :
    Ty.unionsF n l₁ = Ty.unionsF n l₂ := by
  apply Ty.unionsF_congr
  intro x
  simp only [List.mem_flatMap]
  constructor
  · rintro ⟨a, ha, hx⟩
    exact ⟨a, h.subset ha, hx⟩
  · rintro ⟨a, ha, hx⟩
    exact ⟨a, h.symm.subset ha, hx⟩

theorem Ty.unionsF_pair {n : Nat} {x y : Ty} (hfx : Ty.intoIterUnion x = [x])
    (hfy : Ty.intoIterUnion y = [y]) (hlt : Ty.lt x y) :
    Ty.unionsF (n + 1) [x, y] = Ty.unionsCore n [x, y] := by
  simp only [Ty.unionsF]
  rw [show [x, y].flatMap Ty.intoIterUnion = [x, y] by simp [hfx, hfy]]
  rw [show List.insertionSort Ty.le [x, y] = [x, y] by
    apply Ty.insertionSort_eq_self
    simp [List.sorted_cons]
    exact Ty.le_of_lt hlt]
  rw [show Ty.dedupAdjacent [x, y] = [x, y] from
    Ty.dedupAdjacent_eq_self (by simp [List.chain'_cons, Ty.lt_ne hlt])]

theorem Ty.unionsCore_pair_merge {n : Nat} {x y m : Ty}
    (hx : x ≠ Ty.never) (hxa : x ≠ Ty.any) (hy : y ≠ Ty.never)
    (hya : y ≠ Ty.any) (hm : Ty.mergePairF n x y = some m) :
    Ty.unionsCore n [x, y] = m := by
  have hf : List.filter (fun z => !(z == Ty.never)) [x, y] = [x, y] := by
    simp [List.filter, Ty.beq_false_of_ne hx, Ty.beq_false_of_ne hy]
  have hc : ([x, y].contains Ty.any) = false := by
    cases hb : ([x, y].contains Ty.any) with
    | false => rfl
    | true =>
      have hmem := Ty.contains_iff.mp hb
      rcases List.mem_cons.mp hmem with he | he
      · exact absurd he.symm hxa
      · rw [List.mem_singleton] at he
        exact absurd he.symm hya
  simp only [Ty.unionsCore, hf, hc]
  simp only [Bool.false_eq_true, if_false]
  simp only [Ty.mergeAdjF, Ty.mergeRunF, hm]

theorem Ty.unions_list_merge {a b : String} (h : a ≠ b) :
    Ty.unions [Ty.list (Ty.name a), Ty.list (Ty.name b)]
      = Ty.list (Ty.unions [Ty.name a, Ty.name b]) := by
  have hnu : Ty.nuList [Ty.list (Ty.name a), Ty.list (Ty.name b)] = 1 := by
    simp [Ty.nuList, Ty.nu]
  have hnu2 : Ty.nuList [Ty.name a, Ty.name b] = 0 := by
    simp [Ty.nuList, Ty.nu]
  rcases h.lt_or_lt with hab | hba
  · have hlt : Ty.lt (Ty.list (Ty.name a)) (Ty.list (Ty.name b)) :=
      cmpo_lt_iff.mpr hab
    show Ty.unionsF _ _ = _
    rw [hnu]
    rw [@Ty.unionsF_pair 1 (Ty.list (Ty.name a)) (Ty.list (Ty.name b))
      rfl rfl hlt]
    rw [@Ty.unionsCore_pair_merge 1 (Ty.list (Ty.name a)) (Ty.list (Ty.name b))
      (Ty.list (Ty.unionsF 1 [Ty.name a, Ty.name b]))
      (fun hh => nomatch hh) (fun hh => nomatch hh) (fun hh => nomatch hh)
      (fun hh => nomatch hh) (by simp [Ty.mergePairF])]
    show _ = Ty.list (Ty.unionsF _ _)
    rw [hnu2]
  · have hlt : Ty.lt (Ty.list (Ty.name b)) (Ty.list (Ty.name a)) :=
      cmpo_lt_iff.mpr hba
    rw [Ty.unions_perm (List.Perm.swap (Ty.list (Ty.name b))
      (Ty.list (Ty.name a)) [])]
    have hnu' : Ty.nuList [Ty.list (Ty.name b), Ty.list (Ty.name a)] = 1 := by
      simp [Ty.nuList, Ty.nu]
    show Ty.unionsF _ _ = _
    rw [hnu']
    rw [@Ty.unionsF_pair 1 (Ty.list (Ty.name b)) (Ty.list (Ty.name a))
      rfl rfl hlt]
    rw [@Ty.unionsCore_pair_merge 1 (Ty.list (Ty.name b)) (Ty.list (Ty.name a))
      (Ty.list (Ty.unionsF 1 [Ty.name b, Ty.name a]))
      (fun hh => nomatch hh) (fun hh => nomatch hh) (fun hh => nomatch hh)
      (fun hh => nomatch hh) (by simp [Ty.mergePairF])]
    rw [Ty.unionsF_perm (List.Perm.swap (Ty.name a) (Ty.name b) [])]
    show _ = Ty.list (Ty.unionsF _ _)
    rw [hnu2]

theorem Ty.unions_dict_merge {a b c d : String}
    (h : Ty.dict (Ty.name a) (Ty.name b) ≠ Ty.dict (Ty.name c) (Ty.name d)) :
    Ty.unions [Ty.dict (Ty.name a) (Ty.name b), Ty.dict (Ty.name c) (Ty.name d)]
      = Ty.dict (Ty.unions [Ty.name a, Ty.name c])
          (Ty.unions [Ty.name b, Ty.name d]) := by
  have hnu : Ty.nuList
      [Ty.dict (Ty.name a) (Ty.name b), Ty.dict (Ty.name c) (Ty.name d)]
        = 1 := by
    simp [Ty.nuList, Ty.nu]
  have hnu2 : Ty.nuList [Ty.name a, Ty.name c] = 0 := by
    simp [Ty.nuList, Ty.nu]
  have hnu3 : Ty.nuList [Ty.name b, Ty.name d] = 0 := by
    simp [Ty.nuList, Ty.nu]
  cases hcmp : Ty.cmp (Ty.dict (Ty.name a) (Ty.name b))
      (Ty.dict (Ty.name c) (Ty.name d)) with
  | eq => exact absurd (Ty.cmp_eq_iff.mp hcmp) h
  | lt =>
    show Ty.unionsF _ _ = _
    rw [hnu]
    rw [@Ty.unionsF_pair 1 (Ty.dict (Ty.name a) (Ty.name b))
      (Ty.dict (Ty.name c) (Ty.name d)) rfl rfl hcmp]
    rw [@Ty.unionsCore_pair_merge 1 (Ty.dict (Ty.name a) (Ty.name b))
      (Ty.dict (Ty.name c) (Ty.name d))
      (Ty.dict (Ty.unionsF 1 [Ty.name a, Ty.name c])
        (Ty.unionsF 1 [Ty.name b, Ty.name d]))
      (fun hh => nomatch hh) (fun hh => nomatch hh) (fun hh => nomatch hh)
      (fun hh => nomatch hh) (by simp [Ty.mergePairF])]
    show _ = Ty.dict (Ty.unionsF _ _) (Ty.unionsF _ _)
    rw [hnu2, hnu3]
  | gt =>
    have hlt : Ty.lt (Ty.dict (Ty.name c) (Ty.name d))
        (Ty.dict (Ty.name a) (Ty.name b)) := by
      show Ty.cmp _ _ = _
      rw [Ty.cmp_swap, hcmp]
      rfl
    rw [Ty.unions_perm (List.Perm.swap (Ty.dict (Ty.name c) (Ty.name d))
      (Ty.dict (Ty.name a) (Ty.name b)) [])]
    have hnu' : Ty.nuList
        [Ty.dict (Ty.name c) (Ty.name d), Ty.dict (Ty.name a) (Ty.name b)]
          = 1 := by
      simp [Ty.nuList, Ty.nu]
    show Ty.unionsF _ _ = _
    rw [hnu']
    rw [@Ty.unionsF_pair 1 (Ty.dict (Ty.name c) (Ty.name d))
      (Ty.dict (Ty.name a) (Ty.name b)) rfl rfl hlt]
    rw [@Ty.unionsCore_pair_merge 1 (Ty.dict (Ty.name c) (Ty.name d))
      (Ty.dict (Ty.name a) (Ty.name b))
      (Ty.dict (Ty.unionsF 1 [Ty.name c, Ty.name a])
        (Ty.unionsF 1 [Ty.name d, Ty.name b]))
      (fun hh => nomatch hh) (fun hh => nomatch hh) (fun hh => nomatch hh)
      (fun hh => nomatch hh) (by simp [Ty.mergePairF])]
    rw [Ty.unionsF_perm (List.Perm.swap (Ty.name a) (Ty.name c) []),
      Ty.unionsF_perm (List.Perm.swap (Ty.name b) (Ty.name d) [])]
    show _ = Ty.dict (Ty.unionsF _ _) (Ty.unionsF _ _)
    rw [hnu2, hnu3]

theorem Ty.int_def : Ty.int = Ty.name "int" := rfl

theorem Ty.string_def : Ty.string = Ty.name "string" := rfl

theorem Ty.bool_def : Ty.bool = Ty.name "bool" := rfl

theorem Ty.float_def : Ty.float = Ty.name "float" := rfl

/-- C1: `Ty::unions` is a normalizing constructor: its result is invariant
under permutation of the argument list and under duplication of elements;
a singleton union collapses to its element (for every type satisfying the
`TyUnion` representation invariant, which `unions` being the sole union
constructor guarantees for every observable `Ty`); and the empty union is
`Never`. -/
theorem c1_unions_normalizing :
    (∀ l₁ l₂ : List Ty, l₁.Perm l₂ → Ty.unions l₁ = Ty.unions l₂) ∧
    (∀ (x : Ty) (l : List Ty), Ty.unions (x :: x :: l) = Ty.unions (x :: l)) ∧
    (∀ t : Ty, Ty.unionNormal t → Ty.unions [t] = t) ∧
    Ty.unions [] = Ty.never :=
  ⟨fun _ _ h => Ty.unions_perm h, Ty.unions_dup,
    fun _ h => Ty.unions_single h,
    by simp [Ty.unions, Ty.unionsF, Ty.nuList, Ty.unionsCore, Ty.mergeAdjF,
      Ty.dedupAdjacent]⟩

theorem c1_unions_normalizing_witness :
    Ty.unions [Ty.int, Ty.string] = Ty.unions [Ty.string, Ty.int] ∧
    Ty.unions [Ty.int, Ty.int, Ty.string] = Ty.unions [Ty.int, Ty.string] ∧
    Ty.unions [Ty.union [Ty.name "int", Ty.name "string"]]
      = Ty.union [Ty.name "int", Ty.name "string"] ∧
    Ty.unions [] = Ty.never := by
  refine ⟨c1_unions_normalizing.1 _ _ (List.Perm.swap Ty.string Ty.int []),
    c1_unions_normalizing.2.1 Ty.int [Ty.string],
    c1_unions_normalizing.2.2.1 _ ?_,
    c1_unions_normalizing.2.2.2⟩
  refine ⟨by simp, ?_, ?_, ?_⟩
  · intro x hx
    rcases List.mem_cons.mp hx with rfl | hx
    · decide
    · rw [List.mem_singleton] at hx
      subst hx
      decide
  · refine List.chain'_cons.mpr ⟨?_, List.chain'_singleton _⟩
    exact cmpo_lt_iff.mpr
      (show ("int" : String) < "string" by simp +decide [String.lt_iff])
  · refine List.chain'_cons.mpr ⟨?_, List.chain'_singleton _⟩
    decide

/-- C2: `Ty::unions` merges structural variants pairwise instead of keeping
them as separate alternatives: the union of two list types is a single
list type of the unioned element types (shown for the `int`/`string`
instance of the claim and for all distinct atomic element types), and the
union of two distinct dict types merges key with key and value with
value. -/
theorem c2_unions_structural_merge :
    Ty.unions [Ty.list Ty.int, Ty.list Ty.string]
      = Ty.list (Ty.unions [Ty.int, Ty.string]) ∧
    (∀ a b : String, a ≠ b →
      Ty.unions [Ty.list (Ty.name a), Ty.list (Ty.name b)]
        = Ty.list (Ty.unions [Ty.name a, Ty.name b])) ∧
    (∀ a b c d : String,
      Ty.dict (Ty.name a) (Ty.name b) ≠ Ty.dict (Ty.name c) (Ty.name d) →
      Ty.unions
          [Ty.dict (Ty.name a) (Ty.name b), Ty.dict (Ty.name c) (Ty.name d)]
        = Ty.dict (Ty.unions [Ty.name a, Ty.name c])
            (Ty.unions [Ty.name b, Ty.name d])) := by
  refine ⟨?_, fun a b h => Ty.unions_list_merge h,
    fun a b c d h => Ty.unions_dict_merge h⟩
  rw [Ty.int_def, Ty.string_def]
  exact Ty.unions_list_merge (by decide)

theorem c2_unions_structural_merge_witness :
    Ty.unions [Ty.list (Ty.name "int"), Ty.list (Ty.name "string")]
      = Ty.list (Ty.unions [Ty.name "int", Ty.name "string"]) ∧
    Ty.unions [Ty.dict (Ty.name "int") (Ty.name "string"),
        Ty.dict (Ty.name "string") (Ty.name "int")]
      = Ty.dict (Ty.unions [Ty.name "int", Ty.name "string"])
          (Ty.unions [Ty.name "string", Ty.name "int"]) :=
  ⟨c2_unions_structural_merge.2.1 "int" "string" (by decide),
    c2_unions_structural_merge.2.2 "int" "string" "string" "int" (by
      intro hh
      rw [Ty.dict.injEq, Ty.name.injEq, Ty.name.injEq] at hh
      exact absurd hh.1 (by decide))⟩

/-- C3: union absorption laws: `Any` absorbs (`unions [Any, t] = Any` for
every `t`), and `Never` is the union identity (`unions [Never, t] = t`
for every `t` satisfying the `TyUnion` representation invariant). -/
theorem c3_unions_absorption :
    (∀ t : Ty, Ty.unions [Ty.any, t] = Ty.any) ∧
    (∀ t : Ty, Ty.unionNormal t → Ty.unions [Ty.never, t] = t) := by
  constructor
  · intro t
    show Ty.unionsF _ _ = _
    apply Ty.unionsF_any_mem
    simp [Ty.intoIterUnion]
  · intro t ht
    have h1 : Ty.unions [Ty.never, t] = Ty.unions [t] := by
      unfold Ty.unions
      have hn : Ty.nuList [Ty.never, t] = Ty.nuList [t] := by
        simp [Ty.nuList, Ty.nu]
      rw [hn]
      apply Ty.unionsF_congr
      intro x
      simp [Ty.intoIterUnion]
    rw [h1]
    exact Ty.unions_single ht

theorem c3_unions_absorption_witness :
    Ty.unions [Ty.any, Ty.int] = Ty.any ∧
    Ty.unions [Ty.never, Ty.int] = Ty.int :=
  ⟨c3_unions_absorption.1 Ty.int,
    c3_unions_absorption.2 Ty.int (by rw [Ty.int_def]; exact trivial)⟩

/-- C4: `Ty::indexed` models the result type of `expr[i]`: `Any` and
`Never` are preserved, a list yields its element type for every index, a
tuple yields the element at the index or `Never` out of range (including
the `(a,b)[0] = a` and `(a,b)[5] = Never` instances of the claim), a union
yields the union of the alternatives' indexed results, and every other
variant yields `Any`. -/
theorem c4_indexed :
    (∀ i : Nat, Ty.any.indexed i = Ty.any) ∧
    (∀ i : Nat, Ty.never.indexed i = Ty.never) ∧
    (∀ (t : Ty) (i : Nat), (Ty.list t).indexed i = t) ∧
    (∀ (xs : List Ty) (i : Nat),
      (Ty.tuple xs).indexed i = (xs[i]?).getD Ty.never) ∧
    (∀ a b : Ty, (Ty.tuple2 a b).indexed 0 = a) ∧
    (∀ a b : Ty, (Ty.tuple2 a b).indexed 5 = Ty.never) ∧
    (∀ (xs : List Ty) (i : Nat),
      (Ty.union xs).indexed i = Ty.unions (xs.map fun x => x.indexed i)) ∧
    (∀ (s : String) (i : Nat), (Ty.name s).indexed i = Ty.any) ∧
    (∀ (t : Ty) (i : Nat), (Ty.iter t).indexed i = Ty.any) ∧
    (∀ (k v : Ty) (i : Nat), (Ty.dict k v).indexed i = Ty.any) ∧
    (∀ (c : TyCustomM) (i : Nat), (Ty.custom c).indexed i = Ty.any) := by
  refine ⟨fun i => by simp [Ty.indexed], fun i => by simp [Ty.indexed],
    fun t i => by simp [Ty.indexed],
    fun xs i => by simp [Ty.indexed],
    fun a b => by simp [Ty.indexed, Ty.tuple2],
    fun a b => by simp [Ty.indexed, Ty.tuple2],
    fun xs i => ?_,
    fun s i => by simp [Ty.indexed],
    fun t i => by simp [Ty.indexed],
    fun k v i => by simp [Ty.indexed],
    fun c i => by simp [Ty.indexed]⟩
  simp only [Ty.indexed]
  rw [List.attach_map_val xs (fun x => x.indexed i)]

/-- C5 counterexample: contrary to the claim, `Ty::name` applied to the
string `"tuple"` does produce a `Ty::Name` carrying `"tuple"` (the code
cannot build `Ty::Tuple` because the tuple length is unknown). -/
theorem c5_name_counterexample : Ty.mkName "tuple" = Ty.name "tuple" := rfl

/-- C5 (amended): `Ty::name` maps `"list"` and `"dict"` to the dedicated
structural representations, so a `Ty::Name` is never literally `"list"`
or `"dict"`; but `"tuple"` stays a `Ty::Name`, because the arity of the
tuple is unknown at that point. -/
theorem c5_name_dedicated :
    Ty.mkName "list" = Ty.list Ty.any ∧
    Ty.mkName "dict" = Ty.dict Ty.any Ty.any ∧
    Ty.mkName "tuple" = Ty.name "tuple" ∧
    (∀ s : String, Ty.mkName s ≠ Ty.name "list" ∧ Ty.mkName s ≠ Ty.name "dict") := by
  refine ⟨rfl, rfl, rfl, fun s => ?_⟩
  unfold Ty.mkName
  split <;> simp_all [Ty.functionAny, Ty.structAny]

theorem TypeCompiled.anyOf_matches (ts : List TypeCompiled) (v : Value) :
    (TypeCompiled.anyOf ts).matches v = ts.any fun t => t.matches v := by
  simp only [TypeCompiled.matches]
  cases hb : ts.any (fun t => t.matches v) with
  | true =>
    rw [List.any_eq_true] at hb ⊢
    obtain ⟨t, ht, hm⟩ := hb
    exact ⟨⟨t, ht⟩, List.mem_attach _ _, hm⟩
  | false =>
    rw [List.any_eq_false] at hb ⊢
    intro x _
    exact hb x.1 x.2

theorem all_attach_eq {α : Type} (l : List α) (f : α → Bool) :
    (l.attach.all fun x => f x.1) = l.all f := by
  cases hb : l.all f with
  | true =>
    rw [List.all_eq_true] at hb ⊢
    intro x _
    exact hb x.1 x.2
  | false =>
    rw [List.all_eq_false] at hb ⊢
    obtain ⟨x, hx, hnx⟩ := hb
    exact ⟨⟨x, hx⟩, List.mem_attach _ _, hnx⟩

theorem TypeCompiled.tupleOf_matches_zip (ts : List TypeCompiled)
    (vs : List Value) :
    (TypeCompiled.tupleOf ts).matches (Value.tuple vs)
      = (vs.length == ts.length && ((ts.zip vs).all fun p => p.1.matches p.2)) := by
  simp only [TypeCompiled.matches]
  congr 1
  exact all_attach_eq (ts.zip vs) fun q => q.1.matches q.2

theorem any_attach_eq {α : Type} (l : List α) (f : α → Bool) :
    (l.attach.any fun x => f x.1) = l.any f := by
  cases hb : l.any f with
  | true =>
    rw [List.any_eq_true] at hb ⊢
    obtain ⟨x, hx, hfx⟩ := hb
    exact ⟨⟨x, hx⟩, List.mem_attach _ _, hfx⟩
  | false =>
    rw [List.any_eq_false] at hb ⊢
    intro x _
    exact hb x.1 x.2

/-- C6: the two-element-list union fast path of the runtime matcher is
semantically equivalent to the general any-of path: for every pair of
compiled matchers and every runtime value, `type_any_of_two(t1, t2)`
accepts the value exactly when `type_any_of([t1, t2])` does. -/
theorem c6_any_of_two_equiv (t1 t2 : TypeCompiled) (v : Value) :
    (TypeCompiled.anyOfTwo t1 t2).matches v
      = (TypeCompiled.anyOf [t1, t2]).matches v := by
  rw [TypeCompiled.anyOf_matches]
  simp [TypeCompiled.matches, List.any_cons, List.any_nil]

theorem TypeCompiled.tupleOf_matches_iff (ts : List TypeCompiled)
    (vs : List Value) :
    (TypeCompiled.tupleOf ts).matches (Value.tuple vs) = true ↔
      List.Forall₂ (fun t w => t.matches w = true) ts vs := by
  rw [TypeCompiled.tupleOf_matches_zip, Bool.and_eq_true, List.forall₂_iff_zip]
  constructor
  · rintro ⟨hlen, hall⟩
    have h' : vs.length = ts.length := by simpa using hlen
    refine ⟨h'.symm, ?_⟩
    intro a b hab
    exact List.all_eq_true.mp hall (a, b) hab
  · rintro ⟨hlen, hR⟩
    refine ⟨by simp [hlen], List.all_eq_true.mpr fun p hp => ?_⟩
    exact hR hp

/-- C9: compiling the empty tuple value `()` as a type annotation succeeds
(unlike the empty list, which is an invalid-type-annotation error), and
the resulting matcher accepts exactly the zero-length tuple values; in
general a tuple annotation of arity `n` matches exactly the tuples of
arity `n` whose components match positionally (`Forall₂` of the component
matchers; only tuple values can match). -/
theorem c9_tuple_ann :
    TypeCompiled.new (Value.tuple []) = .ok (TypeCompiled.tupleOf []) ∧
    TypeCompiled.new (Value.list [])
      = .error (.invalidTypeAnn (Value.list [])) ∧
    (∀ v : Value,
      (TypeCompiled.tupleOf []).matches v = true ↔ v = Value.tuple []) ∧
    (∀ (ts : List TypeCompiled) (vs : List Value),
      (TypeCompiled.tupleOf ts).matches (Value.tuple vs) = true ↔
        List.Forall₂ (fun t w => t.matches w = true) ts vs) ∧
    (∀ (ts : List TypeCompiled) (v : Value),
      (TypeCompiled.tupleOf ts).matches v = true → ∃ vs, v = Value.tuple vs) := by
  refine ⟨?_, ?_, ?_, TypeCompiled.tupleOf_matches_iff, ?_⟩
  · simp only [TypeCompiled.new, TypeCompiled.fromTuple, TypeCompiled.newList]
    rfl
  · simp [TypeCompiled.new, TypeCompiled.fromList]
  · intro v
    cases v <;> simp [TypeCompiled.matches]
  · intro ts v h
    cases v <;> simp [TypeCompiled.matches] at h ⊢

theorem c9_tuple_ann_witness :
    ((TypeCompiled.tupleOf []).matches (Value.tuple []) = true ↔
      Value.tuple [] = Value.tuple []) ∧
    ((TypeCompiled.tupleOf [TypeCompiled.isInt]).matches
        (Value.tuple [Value.int 1]) = true ↔
      List.Forall₂ (fun t w => t.matches w = true)
        [TypeCompiled.isInt] [Value.int 1]) ∧
    (∃ vs, Value.tuple [Value.int 1] = Value.tuple vs) :=
  ⟨c9_tuple_ann.2.2.1 (Value.tuple []),
    c9_tuple_ann.2.2.2.1 [TypeCompiled.isInt] [Value.int 1],
    c9_tuple_ann.2.2.2.2 [TypeCompiled.isInt]
      (Value.tuple [Value.int 1]) (by
        rw [TypeCompiled.tupleOf_matches_zip]
        simp [TypeCompiled.matches, Value.unpackInt])⟩

/-- C7: dict type annotations: a dict annotation with zero entries or two
or more entries fails compilation with the invalid-type-annotation error;
a single-entry `{k: v}` with both sides wildcards compiles to the bare
dict check (accepting every dict value); any other single-entry `{k: v}`
whose sides compile yields a matcher accepting exactly the dict values
all of whose keys match `k` and values match `v` — in particular
`{str: int}` matches `{"k": 1}` but neither `{"k": "v"}` nor `{1: 1}`. -/
theorem c7_dict_ann :
    (∀ es : List (Value × Value), es.length ≠ 1 →
      TypeCompiled.fromDict es = .error (.invalidTypeAnn (Value.dict es))) ∧
    (∀ k v : Value, TypeCompiled.isWildcardValue k = true →
      TypeCompiled.isWildcardValue v = true →
      TypeCompiled.fromDict [(k, v)] = .ok TypeCompiled.isDict) ∧
    (∀ val : Value, TypeCompiled.isDict.matches val = val.isDictV) ∧
    (∀ k v : Value,
      ¬(TypeCompiled.isWildcardValue k = true ∧
        TypeCompiled.isWildcardValue v = true) →
      ∀ ck cv : TypeCompiled, TypeCompiled.new k = .ok ck →
        TypeCompiled.new v = .ok cv →
        TypeCompiled.fromDict [(k, v)] = .ok (TypeCompiled.dictOf ck cv)) ∧
    (∀ (ck cv : TypeCompiled) (es : List (Value × Value)),
      (TypeCompiled.dictOf ck cv).matches (Value.dict es)
        = es.all fun kv => ck.matches kv.1 && cv.matches kv.2) ∧
    (∀ (ck cv : TypeCompiled) (val : Value), val.isDictV = false →
      (TypeCompiled.dictOf ck cv).matches val = false) ∧
    TypeCompiled.new (Value.dict [(Value.str "string", Value.str "int")])
      = .ok (TypeCompiled.dictOf TypeCompiled.isString TypeCompiled.isInt) ∧
    (TypeCompiled.dictOf TypeCompiled.isString TypeCompiled.isInt).matches
      (Value.dict [(Value.str "k", Value.int 1)]) = true ∧
    (TypeCompiled.dictOf TypeCompiled.isString TypeCompiled.isInt).matches
      (Value.dict [(Value.str "k", Value.str "v")]) = false ∧
    (TypeCompiled.dictOf TypeCompiled.isString TypeCompiled.isInt).matches
      (Value.dict [(Value.int 1, Value.int 1)]) = false := by
  refine ⟨?_, ?_, ?_, ?_, ?_, ?_, ?_, ?_, ?_, ?_⟩
  · intro es hlen
    match es with
    | [] => simp [TypeCompiled.fromDict]
    | [(k, v)] => simp at hlen
    | (k1, v1) :: (k2, v2) :: rest => simp [TypeCompiled.fromDict]
  · intro k v hk hv
    simp [TypeCompiled.fromDict, hk, hv]
  · intro val
    simp [TypeCompiled.matches]
  · intro k v hnw ck cv hck hcv
    have hcond : (TypeCompiled.isWildcardValue k &&
        TypeCompiled.isWildcardValue v) = false := by
      cases hwk : TypeCompiled.isWildcardValue k <;>
        cases hwv : TypeCompiled.isWildcardValue v <;>
          simp_all
    simp [TypeCompiled.fromDict, hcond, hck, hcv]
    rfl
  · intro ck cv es
    simp [TypeCompiled.matches]
  · intro ck cv val hval
    cases val <;> simp_all [TypeCompiled.matches, Value.isDictV]
  · simp [TypeCompiled.new, TypeCompiled.fromDict, TypeCompiled.fromStr,
      TypeCompiled.isWildcardValue, TypeCompiled.isWildcard, Value.unpackStr]
    rfl
  · simp [TypeCompiled.matches, Value.unpackStr, Value.unpackInt]
  · simp [TypeCompiled.matches, Value.unpackStr, Value.unpackInt,
      Value.matchesType, Value.getType]
  · simp [TypeCompiled.matches, Value.unpackStr, Value.unpackInt,
      Value.matchesType, Value.getType]

theorem c7_dict_ann_witness :
    TypeCompiled.fromDict
        [(Value.int 1, Value.str "a"), (Value.int 2, Value.str "b")]
      = .error (.invalidTypeAnn (Value.dict
          [(Value.int 1, Value.str "a"), (Value.int 2, Value.str "b")])) ∧
    TypeCompiled.fromDict [(Value.str "", Value.str "_x")]
      = .ok TypeCompiled.isDict ∧
    TypeCompiled.fromDict [(Value.str "string", Value.str "int")]
      = .ok (TypeCompiled.dictOf TypeCompiled.isString TypeCompiled.isInt) := by
  refine ⟨c7_dict_ann.1 _ (by simp), ?_, ?_⟩
  · exact c7_dict_ann.2.1 (Value.str "") (Value.str "_x")
      (by simp [TypeCompiled.isWildcardValue, TypeCompiled.isWildcard,
        Value.unpackStr])
      (by simp [TypeCompiled.isWildcardValue, TypeCompiled.isWildcard,
        Value.unpackStr])
  · exact c7_dict_ann.2.2.2.1 (Value.str "string") (Value.str "int")
      (by
        intro hw
        simp [TypeCompiled.isWildcardValue, TypeCompiled.isWildcard,
          Value.unpackStr] at hw)
      TypeCompiled.isString TypeCompiled.isInt
      (by simp [TypeCompiled.new, TypeCompiled.fromStr,
        TypeCompiled.isWildcard])
      (by simp [TypeCompiled.new, TypeCompiled.fromStr,
        TypeCompiled.isWildcard])

/-- C8: `Never`-propagation in the checker: an `and`/`or` expression types
as `Never` when the left operand's type is `Never` and as the union of the
operand types otherwise; a conditional expression types as `Never` when
the condition's type is `Never` and as the union of the branch types
otherwise; comparison and equality operators type as `bool`, or as
`Never` when either operand's type is already `Never`. -/
theorem c8_never_propagation (ctx : TypingContextM) (a b c t f : ExprM) :
    (ctx.exprType (.op a .andOp b)
      = if (ctx.exprType a).isNever then Ty.never
        else Ty.union2 (ctx.exprType a) (ctx.exprType b)) ∧
    (ctx.exprType (.op a .orOp b)
      = if (ctx.exprType a).isNever then Ty.never
        else Ty.union2 (ctx.exprType a) (ctx.exprType b)) ∧
    (ctx.exprType (.ifE c t f)
      = if (ctx.exprType c).isNever then Ty.never
        else Ty.union2 (ctx.exprType t) (ctx.exprType f)) ∧
    (ctx.exprType (.op a .equal b)
      = if (ctx.exprType a).isNever || (ctx.exprType b).isNever then Ty.never
        else Ty.bool) ∧
    (ctx.exprType (.op a .notEqual b)
      = if (ctx.exprType a).isNever || (ctx.exprType b).isNever then Ty.never
        else Ty.bool) ∧
    (ctx.exprType (.op a .less b)
      = if (ctx.exprType a).isNever || (ctx.exprType b).isNever then Ty.never
        else Ty.bool) ∧
    (ctx.exprType (.op a .lessOrEqual b)
      = if (ctx.exprType a).isNever || (ctx.exprType b).isNever then Ty.never
        else Ty.bool) ∧
    (ctx.exprType (.op a .greater b)
      = if (ctx.exprType a).isNever || (ctx.exprType b).isNever then Ty.never
        else Ty.bool) ∧
    (ctx.exprType (.op a .greaterOrEqual b)
      = if (ctx.exprType a).isNever || (ctx.exprType b).isNever then Ty.never
        else Ty.bool) := by
  refine ⟨?_, ?_, ?_, ?_, ?_, ?_, ?_, ?_, ?_⟩ <;>
    simp only [TypingContextM.exprType]

/-- C10: in `expression_bind_type` on an indexed-set, the index expression
is validated against `int` (recording the oracle's type-mismatch error)
exactly when the target binding's recorded type is literally a `List`
variant; a union (even one containing a list), a dict, or any other type
triggers no index validation.  The resulting type is the union of the
refined list/dict alternatives of the recorded type. -/
theorem c10_set_index_validation (ctx : TypingContextM) (id : Nat)
    (index : ExprM) (e : BindExprM) :
    ((ctx.bindExprType (.setIndex id index e)).2
      = (ctx.bindExprType e).2 ++
          (if (ctx.types id).isList then
            (ctx.validateType (ctx.exprType index) Ty.int).toList
          else [])) ∧
    (∀ x : Ty, (Ty.list x).isList = true) ∧
    (∀ xs : List Ty, (Ty.union xs).isList = false) ∧
    (∀ k v : Ty, (Ty.dict k v).isList = false) ∧
    (∀ s : String, (Ty.name s).isList = false) ∧
    ((ctx.bindExprType (.setIndex id index e)).1
      = Ty.unions ((ctx.types id).iterUnion.filterMap fun ty =>
          match ty with
          | Ty.list _ => some (Ty.list (ctx.bindExprType e).1)
          | Ty.dict _ _ => some (Ty.dict (ctx.exprType index)
              (ctx.bindExprType e).1)
          | _ => Option.none)) := by
  refine ⟨?_, fun x => rfl, fun xs => rfl, fun k v => rfl, fun s => rfl, ?_⟩ <;>
    simp only [TypingContextM.bindExprType]
